import Mathlib

/-!
# ProperSupportedResolutions

A shallow embedding of `ProperSupportedResolutions.cpp`: the `Resolution` value type with its
comparator `Resolution::Compare`, and `GetSupportedResolutions`, the loop that queries
`EnumDisplaySettingsA` at the indices `0, 1, 2, ...` and collects the answers in a
`std::set<Resolution, Resolution::Compare>`.

* Unsigned machine integers are natural numbers. The only arithmetic of the program is the
  increment of the `DWORD` loop counter, taken modulo `2 ^ 32`.
* The operating system's primitive is a parameter `EnumDisplaySettingsA : Nat → Option DEVMODEA`:
  `none` is its zero (`FALSE`) result, `some dm` a non-zero result that filled in `dm`.
* The ordered set is the list of its elements in iteration order.
-/

/-! ## Data model -/

/-- The three `uint64_t` fields of `struct Resolution`. -/
structure Resolution where
  width : Nat
  height : Nat
  refreshRate : Nat
deriving DecidableEq

/-- The fields of the `DEVMODEA` record that the program reads (each a `DWORD`). -/
structure DEVMODEA where
  dmPelsWidth : Nat
  dmPelsHeight : Nat
  dmDisplayFrequency : Nat
deriving DecidableEq

namespace Resolution

/-- The call operator of `Resolution::Compare`. -/
def Compare (r1 r2 : Resolution) : Bool :=
  if r1.width = r2.width then
    if r1.height = r2.height then
      decide (r1.refreshRate < r2.refreshRate)
    else
      decide (r1.height < r2.height)
  else
    decide (r1.width < r2.width)

end Resolution

/-- The braced initialiser `{ dm.dmPelsWidth, dm.dmPelsHeight, dm.dmDisplayFrequency }`: each
`DWORD` is widened to `uint64_t`, which keeps its value. -/
def DEVMODEA.toResolution (dm : DEVMODEA) : Resolution :=
  ⟨dm.dmPelsWidth, dm.dmPelsHeight, dm.dmDisplayFrequency⟩

/-! ## The ordered container -/

namespace StdSet

/-- Modelled from the spec: `std::set<Resolution, Resolution::Compare>::insert` belongs to the
C++ standard library and is not part of the repository. The container is "ordered,
deduplicating" and "keyed by the comparison", and "insertion is a no-op if an equal triple is
already present". The set is represented by the list of its elements in ascending iteration
order. As the library does, `insert` looks only at the comparator: it walks past the elements
that compare less than `r`, puts `r` in front of the first element that `r` compares less than,
and leaves the container alone when it meets an element equivalent to `r` (neither compares
less than the other). -/
def insert (r : Resolution) : List Resolution → List Resolution
  | [] => [r]
  | x :: xs =>
    if Resolution.Compare r x then r :: x :: xs
    else if Resolution.Compare x r then x :: insert r xs
    else x :: xs

end StdSet

/-! ## The enumeration loop -/

/-- The `for` loop of `GetSupportedResolutions`, from the state `(iModeNum, resolutions)`.
Every iteration first evaluates the loop condition `EnumDisplaySettingsA(NULL, iModeNum, &dm)`;
on a zero result the loop ends with the container as it is, otherwise the mode is inserted and
the `DWORD` counter is incremented. `fuel` bounds the number of evaluations of the condition;
`none` means the bound was reached. -/
def enumLoop (EnumDisplaySettingsA : Nat → Option DEVMODEA) :
    Nat → Nat → List Resolution → Option (List Resolution)
  | 0, _, _ => none
  | fuel + 1, iModeNum, resolutions =>
    match EnumDisplaySettingsA iModeNum with
    | none => some resolutions
    | some dm =>
      enumLoop EnumDisplaySettingsA fuel ((iModeNum + 1) % 2 ^ 32)
        (StdSet.insert dm.toResolution resolutions)

/-- The function `GetSupportedResolutions`: the loop started at index `0` with an empty set,
followed by the copy of the set into a vector (the same list). The counter takes `2 ^ 32` values, so a loop that
has not ended after `2 ^ 32` evaluations of its condition is back at index `0` and never ends
(`enumLoop_fuel_irrelevant`): the result is `none` exactly when the C++ function does not
return. -/
def GetSupportedResolutions (EnumDisplaySettingsA : Nat → Option DEVMODEA) :
    Option (List Resolution) :=
  enumLoop EnumDisplaySettingsA (2 ^ 32) 0 []

/-! ## Vocabulary of the specification -/

/-- An enumeration source that answers with the modes of a list, in order, and signals
exhaustion from the end of the list on. -/
def sourceOfList (modes : List DEVMODEA) : Nat → Option DEVMODEA :=
  fun i => modes[i]?

/-- The index `n` is the least one at which the source signals that there is no mode. -/
def ExhaustsAt (src : Nat → Option DEVMODEA) (n : Nat) : Prop :=
  src n = none ∧ ∀ j, j < n → (src j).isSome = true

/-- The triples of the modes at the indices `0, ..., n - 1`, in the order of the indices. -/
def reportedBefore (src : Nat → Option DEVMODEA) (n : Nat) : List Resolution :=
  (List.range n).filterMap (fun i => (src i).map DEVMODEA.toResolution)

/-- The source reports the triple `t` at some index before it signals exhaustion. -/
def Reports (src : Nat → Option DEVMODEA) (t : Resolution) : Prop :=
  ∃ i dm, (∀ j, j < i → (src j).isSome = true) ∧ src i = some dm ∧ dm.toResolution = t

/-- The container at the head of the loop when the counter is `k` and the counter has not wrapped:
the modes at the indices below `k` inserted one after the other into the empty set. -/
def containerAt (src : Nat → Option DEVMODEA) : Nat → List Resolution
  | 0 => []
  | k + 1 =>
    match src k with
    | none => containerAt src k
    | some dm => StdSet.insert dm.toResolution (containerAt src k)

/-- The states of the container that the loop can reach: it starts empty, and every iteration
inserts the triple of one mode record. -/
inductive Reachable : List Resolution → Prop
  | empty : Reachable []
  | step (dm : DEVMODEA) (s : List Resolution) :
      Reachable s → Reachable (StdSet.insert dm.toResolution s)

namespace Resolution

/-- Strictly ascending in the lexicographic order on `(width, height, refreshRate)`. -/
def lexLt (a b : Resolution) : Prop :=
  a.width < b.width ∨ (a.width = b.width ∧ a.height < b.height) ∨
    (a.width = b.width ∧ a.height = b.height ∧ a.refreshRate < b.refreshRate)

/-- Ascending, not necessarily strictly, in the lexicographic order on
`(width, height, refreshRate)`. -/
def lexLe (a b : Resolution) : Prop :=
  a.width < b.width ∨ (a.width = b.width ∧ a.height < b.height) ∨
    (a.width = b.width ∧ a.height = b.height ∧ a.refreshRate ≤ b.refreshRate)

instance lexLe_decidable : DecidableRel lexLe := fun a b =>
  inferInstanceAs (Decidable (a.width < b.width ∨ (a.width = b.width ∧ a.height < b.height) ∨
    (a.width = b.width ∧ a.height = b.height ∧ a.refreshRate ≤ b.refreshRate)))

end Resolution

/-- The reference procedure of the specification, written from its words and not from the code:
first remove the duplicate triples from the list of reported modes, then sort the unique triples
ascending by `(width, height, refreshRate)`. -/
def referenceDedupThenSort (reported : List Resolution) : List Resolution :=
  List.insertionSort Resolution.lexLe reported.dedup

/-! ## The loop with its queries recorded -/

/-- The `for` loop of `GetSupportedResolutions` once more, with one more component of state:
`queried`, the indices at which the loop condition has called `EnumDisplaySettingsA` so far, in
the order of the calls. The loop itself is unchanged (`enumLoopQueries_snd`). -/
def enumLoopQueries (EnumDisplaySettingsA : Nat → Option DEVMODEA) :
    Nat → Nat → List Nat → List Resolution → Option (List Nat × List Resolution)
  | 0, _, _, _ => none
  | fuel + 1, iModeNum, queried, resolutions =>
    match EnumDisplaySettingsA iModeNum with
    | none => some (queried ++ [iModeNum], resolutions)
    | some dm =>
      enumLoopQueries EnumDisplaySettingsA fuel ((iModeNum + 1) % 2 ^ 32)
        (queried ++ [iModeNum]) (StdSet.insert dm.toResolution resolutions)

/-- The three fields of the record hold `DWORD` values, as every `DEVMODEA` in memory does. -/
def DEVMODEA.InDWordRange (dm : DEVMODEA) : Prop :=
  dm.dmPelsWidth < 2 ^ 32 ∧ dm.dmPelsHeight < 2 ^ 32 ∧ dm.dmDisplayFrequency < 2 ^ 32

/-! ## Sample sources -/

/-- A source with a repeated mode: `(1920,1080,60)` twice, then `(3840,2160,30)`. -/
def duplicateSource : Nat → Option DEVMODEA :=
  sourceOfList [⟨1920, 1080, 60⟩, ⟨1920, 1080, 60⟩, ⟨3840, 2160, 30⟩]

/-- The same modes as `duplicateSource`, in another order and with other multiplicities. -/
def shuffledSource : Nat → Option DEVMODEA :=
  sourceOfList [⟨3840, 2160, 30⟩, ⟨1920, 1080, 60⟩, ⟨3840, 2160, 30⟩, ⟨3840, 2160, 30⟩]

/-- A source that reports three modes out of order. -/
def unorderedSource : Nat → Option DEVMODEA :=
  sourceOfList [⟨3840, 2160, 120⟩, ⟨3440, 1440, 144⟩, ⟨3840, 2160, 60⟩]

/-- A source that answers like `duplicateSource` up to its exhaustion index `3` and reports a
mode at every later index. -/
def resumingSource : Nat → Option DEVMODEA :=
  fun i => if i = 3 then none else if i < 3 then duplicateSource i else some ⟨640, 480, 60⟩

/-- A source that reports the mode `(640,480,60)` at every index and never signals
exhaustion. -/
def endlessSource : Nat → Option DEVMODEA :=
  fun _ => some ⟨640, 480, 60⟩

/-! ## The comparator -/

namespace Resolution

theorem Compare_iff_lexLt (a b : Resolution) : Compare a b = true ↔ lexLt a b := by
  unfold Compare lexLt
  split_ifs <;> simp <;> omega

theorem lexLt_irrefl (a : Resolution) : ¬ lexLt a a := by
  unfold lexLt
  omega

theorem lexLt_trans {a b c : Resolution} (hab : lexLt a b) (hbc : lexLt b c) : lexLt a c := by
  unfold lexLt at *
  omega

theorem lexLt_asymm {a b : Resolution} (hab : lexLt a b) : ¬ lexLt b a := by
  unfold lexLt at *
  omega

theorem eq_of_fields {a b : Resolution} (hw : a.width = b.width) (hh : a.height = b.height)
    (hf : a.refreshRate = b.refreshRate) : a = b := by
  cases a
  cases b
  simp_all

theorem lexLt_trichotomy (a b : Resolution) : lexLt a b ∨ a = b ∨ lexLt b a := by
  by_cases hw : a.width = b.width
  · by_cases hh : a.height = b.height
    · by_cases hf : a.refreshRate = b.refreshRate
      · exact Or.inr (Or.inl (eq_of_fields hw hh hf))
      · unfold lexLt
        omega
    · unfold lexLt
      omega
  · unfold lexLt
    omega

theorem lexLe_iff (a b : Resolution) : lexLe a b ↔ lexLt a b ∨ a = b := by
  constructor
  · intro h
    rcases lexLt_trichotomy a b with h1 | h1 | h1
    · exact Or.inl h1
    · exact Or.inr h1
    · unfold lexLe at h
      unfold lexLt at h1
      omega
  · rintro (h | rfl)
    · unfold lexLe
      unfold lexLt at h
      omega
    · unfold lexLe
      omega

instance lexLe_isTotal : IsTotal Resolution lexLe :=
  ⟨fun a b => by unfold lexLe; omega⟩

instance lexLe_isTrans : IsTrans Resolution lexLe :=
  ⟨fun a b c hab hbc => by unfold lexLe at *; omega⟩

instance lexLe_isAntisymm : IsAntisymm Resolution lexLe :=
  ⟨fun a b hab hba => by
    apply eq_of_fields <;> (unfold lexLe at *; omega)⟩

end Resolution

/-! ## The ordered container -/

namespace StdSet

theorem mem_insert (r x : Resolution) (s : List Resolution) :
    x ∈ insert r s ↔ x = r ∨ x ∈ s := by
  induction s with
  | nil => simp [insert]
  | cons y ys ih =>
    unfold insert
    split_ifs with h1 h2
    · simp
    · simp only [List.mem_cons, ih]
      tauto
    · have hry : r = y := by
        rcases Resolution.lexLt_trichotomy r y with h | h | h
        · exact absurd ((Resolution.Compare_iff_lexLt r y).2 h) h1
        · exact h
        · exact absurd ((Resolution.Compare_iff_lexLt y r).2 h) h2
      subst hry
      simp

theorem insert_pairwise (r : Resolution) (s : List Resolution)
    (hs : s.Pairwise Resolution.lexLt) : (insert r s).Pairwise Resolution.lexLt := by
  induction s with
  | nil => simp [insert]
  | cons y ys ih =>
    have hy := (List.pairwise_cons.1 hs).1
    have hys := (List.pairwise_cons.1 hs).2
    unfold insert
    split_ifs with h1 h2
    · have hry := (Resolution.Compare_iff_lexLt r y).1 h1
      refine List.pairwise_cons.2 ⟨?_, hs⟩
      intro z hz
      rcases List.mem_cons.1 hz with rfl | hz
      · exact hry
      · exact Resolution.lexLt_trans hry (hy z hz)
    · have hyr := (Resolution.Compare_iff_lexLt y r).1 h2
      refine List.pairwise_cons.2 ⟨?_, ih hys⟩
      intro z hz
      rcases (mem_insert r z ys).1 hz with rfl | hz
      · exact hyr
      · exact hy z hz
    · exact hs

theorem insert_eq_self_of_mem (r : Resolution) (s : List Resolution)
    (hs : s.Pairwise Resolution.lexLt) (hr : r ∈ s) : insert r s = s := by
  induction s with
  | nil => simp at hr
  | cons y ys ih =>
    have hy := (List.pairwise_cons.1 hs).1
    have hys := (List.pairwise_cons.1 hs).2
    unfold insert
    rcases List.mem_cons.1 hr with rfl | hr
    · have h1 : Resolution.Compare r r = false := by
        rw [Bool.eq_false_iff]
        intro h
        exact Resolution.lexLt_irrefl r ((Resolution.Compare_iff_lexLt r r).1 h)
      simp [h1]
    · have hyr := hy r hr
      have h1 : Resolution.Compare r y = false := by
        rw [Bool.eq_false_iff]
        intro h
        exact Resolution.lexLt_asymm hyr ((Resolution.Compare_iff_lexLt r y).1 h)
      have h2 : Resolution.Compare y r = true := (Resolution.Compare_iff_lexLt y r).2 hyr
      simp [h1, h2, ih hys hr]

end StdSet

theorem Reachable.pairwise {s : List Resolution} (hs : Reachable s) :
    s.Pairwise Resolution.lexLt := by
  induction hs with
  | empty => exact List.Pairwise.nil
  | step dm s _ ih => exact StdSet.insert_pairwise _ _ ih

theorem containerAt_reachable (src : Nat → Option DEVMODEA) (k : Nat) :
    Reachable (containerAt src k) := by
  induction k with
  | zero => exact Reachable.empty
  | succ k ih =>
    simp only [containerAt]
    split
    · exact ih
    · exact Reachable.step _ _ ih

theorem containerAt_pairwise (src : Nat → Option DEVMODEA) (k : Nat) :
    (containerAt src k).Pairwise Resolution.lexLt :=
  (containerAt_reachable src k).pairwise

theorem mem_containerAt (src : Nat → Option DEVMODEA) (k : Nat) (x : Resolution) :
    x ∈ containerAt src k ↔ ∃ i dm, i < k ∧ src i = some dm ∧ dm.toResolution = x := by
  induction k with
  | zero => simp [containerAt]
  | succ k ih =>
    simp only [containerAt]
    split
    next hk =>
      rw [ih]
      constructor
      · rintro ⟨i, dm, hi, h1, h2⟩
        exact ⟨i, dm, by omega, h1, h2⟩
      · rintro ⟨i, dm, hi, h1, h2⟩
        have hik : i ≠ k := by
          rintro rfl
          rw [hk] at h1
          cases h1
        exact ⟨i, dm, by omega, h1, h2⟩
    next dm0 hk =>
      rw [StdSet.mem_insert, ih]
      constructor
      · rintro (rfl | ⟨i, dm, hi, h1, h2⟩)
        · exact ⟨k, dm0, by omega, hk, rfl⟩
        · exact ⟨i, dm, by omega, h1, h2⟩
      · rintro ⟨i, dm, hi, h1, h2⟩
        by_cases hik : i = k
        · subst hik
          rw [hk] at h1
          cases h1
          exact Or.inl h2.symm
        · exact Or.inr ⟨i, dm, by omega, h1, h2⟩

/-! ## The loop -/

theorem ExhaustsAt.unique {src : Nat → Option DEVMODEA} {n m : Nat}
    (hn : ExhaustsAt src n) (hm : ExhaustsAt src m) : n = m := by
  rcases Nat.lt_trichotomy n m with h | h | h
  · have := hm.2 n h
    rw [hn.1] at this
    cases this
  · exact h
  · have := hn.2 m h
    rw [hm.1] at this
    cases this

theorem exists_exhaustsAt (src : Nat → Option DEVMODEA) :
    ∀ m, src m = none → ∃ n, n ≤ m ∧ ExhaustsAt src n := by
  intro m
  induction m using Nat.strong_induction_on with
  | _ m ih =>
    intro hm
    by_cases h : ∀ j, j < m → (src j).isSome = true
    · exact ⟨m, le_refl m, hm, h⟩
    · push_neg at h
      obtain ⟨j, hj, hjn⟩ := h
      have hjnone : src j = none := by
        cases hsj : src j with
        | none => rfl
        | some dm => simp [hsj] at hjn
      obtain ⟨n, hn, hex⟩ := ih j hj hjnone
      exact ⟨n, by omega, hex⟩

/-- From the head of the loop at a counter `k` up to the exhaustion index `n`, with the
container the loop has built so far, enough fuel gives the container built up to `n`. -/
theorem enumLoop_of_exhaustsAt (src : Nat → Option DEVMODEA) (n : Nat) (hn : n < 2 ^ 32)
    (hex : ExhaustsAt src n) :
    ∀ fuel k, k ≤ n → n - k < fuel →
      enumLoop src fuel k (containerAt src k) = some (containerAt src n) := by
  intro fuel
  induction fuel with
  | zero => intro k _ hf; omega
  | succ fuel ih =>
    intro k hk hf
    rcases Nat.eq_or_lt_of_le hk with rfl | hlt
    · simp [enumLoop, hex.1]
    · have hsome := hex.2 k hlt
      cases hsk : src k with
      | none => simp [hsk] at hsome
      | some dm =>
        have hmod : (k + 1) % 2 ^ 32 = k + 1 := Nat.mod_eq_of_lt (by omega)
        have hstep : containerAt src (k + 1) = StdSet.insert dm.toResolution (containerAt src k) := by
          simp [containerAt, hsk]
        simp only [enumLoop, hsk, hmod]
        rw [← hstep]
        exact ih (k + 1) (by omega) (by omega)

/-- A source with no exhaustion signal in the range of the counter keeps the loop running. -/
theorem enumLoop_of_never (src : Nat → Option DEVMODEA)
    (hnever : ∀ i, i < 2 ^ 32 → (src i).isSome = true) :
    ∀ fuel k rs, k < 2 ^ 32 → enumLoop src fuel k rs = none := by
  intro fuel
  induction fuel with
  | zero => intro k rs _; rfl
  | succ fuel ih =>
    intro k rs hk
    have hsome := hnever k hk
    cases hsk : src k with
    | none => simp [hsk] at hsome
    | some dm =>
      simp only [enumLoop, hsk]
      exact ih _ _ (Nat.mod_lt _ (by norm_num))

theorem GetSupportedResolutions_of_exhaustsAt (src : Nat → Option DEVMODEA) (n : Nat)
    (hn : n < 2 ^ 32) (hex : ExhaustsAt src n) :
    GetSupportedResolutions src = some (containerAt src n) :=
  enumLoop_of_exhaustsAt src n hn hex (2 ^ 32) 0 (Nat.zero_le n) (by omega)

theorem GetSupportedResolutions_of_never (src : Nat → Option DEVMODEA)
    (hnever : ∀ i, i < 2 ^ 32 → (src i).isSome = true) :
    GetSupportedResolutions src = none :=
  enumLoop_of_never src hnever (2 ^ 32) 0 [] (by norm_num)

theorem never_or_exhaustsAt (src : Nat → Option DEVMODEA) :
    (∀ i, i < 2 ^ 32 → (src i).isSome = true) ∨ ∃ n, n < 2 ^ 32 ∧ ExhaustsAt src n := by
  by_cases h : ∀ i, i < 2 ^ 32 → (src i).isSome = true
  · exact Or.inl h
  · push_neg at h
    obtain ⟨i, hi, hin⟩ := h
    have hinone : src i = none := by
      cases hsi : src i with
      | none => rfl
      | some dm => simp [hsi] at hin
    obtain ⟨n, hn, hex⟩ := exists_exhaustsAt src i hinone
    exact Or.inr ⟨n, by omega, hex⟩

/-- The function returns exactly when the source signals exhaustion at an index in the range of
the counter, and then it returns the container built from the modes below that index. -/
theorem GetSupportedResolutions_eq_some_iff (src : Nat → Option DEVMODEA)
    (l : List Resolution) :
    GetSupportedResolutions src = some l ↔
      ∃ n, n < 2 ^ 32 ∧ ExhaustsAt src n ∧ l = containerAt src n := by
  constructor
  · intro h
    rcases never_or_exhaustsAt src with hnever | ⟨n, hn, hex⟩
    · rw [GetSupportedResolutions_of_never src hnever] at h
      cases h
    · rw [GetSupportedResolutions_of_exhaustsAt src n hn hex] at h
      exact ⟨n, hn, hex, (Option.some.inj h).symm⟩
  · rintro ⟨n, hn, hex, rfl⟩
    exact GetSupportedResolutions_of_exhaustsAt src n hn hex

/-- More fuel than the counter has values changes nothing: `2 ^ 32` evaluations of the loop
condition decide whether the loop ends. -/
theorem enumLoop_fuel_irrelevant (src : Nat → Option DEVMODEA) (fuel : Nat)
    (hfuel : 2 ^ 32 ≤ fuel) : enumLoop src fuel 0 [] = GetSupportedResolutions src := by
  rcases never_or_exhaustsAt src with hnever | ⟨n, hn, hex⟩
  · rw [GetSupportedResolutions_of_never src hnever]
    exact enumLoop_of_never src hnever fuel 0 [] (by norm_num)
  · rw [GetSupportedResolutions_of_exhaustsAt src n hn hex]
    exact enumLoop_of_exhaustsAt src n hn hex fuel 0 (Nat.zero_le n) (by omega)

theorem reports_iff_of_exhaustsAt {src : Nat → Option DEVMODEA} {n : Nat}
    (hex : ExhaustsAt src n) (t : Resolution) :
    Reports src t ↔ t ∈ containerAt src n := by
  rw [mem_containerAt]
  constructor
  · rintro ⟨i, dm, hbefore, hi, ht⟩
    refine ⟨i, dm, ?_, hi, ht⟩
    by_contra hlt
    rcases Nat.eq_or_lt_of_le (Nat.le_of_not_lt hlt) with rfl | hlt2
    · rw [hex.1] at hi
      cases hi
    · have := hbefore n hlt2
      simp [hex.1] at this
  · rintro ⟨i, dm, hi, hsi, ht⟩
    exact ⟨i, dm, fun j hj => hex.2 j (by omega), hsi, ht⟩

theorem mem_reportedBefore (src : Nat → Option DEVMODEA) (n : Nat) (x : Resolution) :
    x ∈ reportedBefore src n ↔ x ∈ containerAt src n := by
  rw [mem_containerAt]
  simp only [reportedBefore, List.mem_filterMap, List.mem_range, Option.map_eq_some']
  constructor
  · rintro ⟨i, hi, dm, h1, h2⟩
    exact ⟨i, dm, hi, h1, h2⟩
  · rintro ⟨i, dm, hi, h1, h2⟩
    exact ⟨i, hi, dm, h1, h2⟩

/-- Two strictly ascending lists with the same elements are the same list. -/
theorem eq_of_pairwise_lexLt_of_mem_iff {l1 l2 : List Resolution}
    (h1 : l1.Pairwise Resolution.lexLt) (h2 : l2.Pairwise Resolution.lexLt)
    (hmem : ∀ x, x ∈ l1 ↔ x ∈ l2) : l1 = l2 := by
  have hnd : ∀ l : List Resolution, l.Pairwise Resolution.lexLt → l.Nodup := by
    intro l hl
    refine hl.imp ?_
    intro a b hab heq
    subst heq
    exact Resolution.lexLt_irrefl a hab
  have hperm : l1.Perm l2 := (List.perm_ext_iff_of_nodup (hnd l1 h1) (hnd l2 h2)).2 hmem
  have hle : ∀ l : List Resolution, l.Pairwise Resolution.lexLt → l.Sorted Resolution.lexLe := by
    intro l hl
    refine hl.imp ?_
    intro a b hab
    exact (Resolution.lexLe_iff a b).2 (Or.inl hab)
  exact List.eq_of_perm_of_sorted hperm (hle l1 h1) (hle l2 h2)

/-- The container built by the loop is the deduplicated and sorted list of the modes it was
built from. -/
theorem containerAt_eq_reference (src : Nat → Option DEVMODEA) (m : Nat) :
    containerAt src m = referenceDedupThenSort (reportedBefore src m) := by
  have hpw := containerAt_pairwise src m
  have hnd : (containerAt src m).Nodup := by
    refine hpw.imp ?_
    intro a b hab heq
    subst heq
    exact Resolution.lexLt_irrefl a hab
  have hsorted : (containerAt src m).Sorted Resolution.lexLe := by
    refine hpw.imp ?_
    intro a b hab
    exact (Resolution.lexLe_iff a b).2 (Or.inl hab)
  have hperm_ref : (referenceDedupThenSort (reportedBefore src m)).Perm
      (reportedBefore src m).dedup := List.perm_insertionSort _ _
  have hnd_ref : (referenceDedupThenSort (reportedBefore src m)).Nodup :=
    hperm_ref.nodup_iff.2 (List.nodup_dedup _)
  have hperm : (containerAt src m).Perm (referenceDedupThenSort (reportedBefore src m)) := by
    refine (List.perm_ext_iff_of_nodup hnd hnd_ref).2 ?_
    intro x
    rw [hperm_ref.mem_iff, List.mem_dedup, mem_reportedBefore]
  exact List.eq_of_perm_of_sorted hperm hsorted (List.sorted_insertionSort _ _)

theorem reportedBefore_congr (src1 src2 : Nat → Option DEVMODEA) (n : Nat)
    (hagree : ∀ i, i < n → src1 i = src2 i) : reportedBefore src1 n = reportedBefore src2 n := by
  unfold reportedBefore
  apply List.filterMap_congr
  intro i hi
  rw [hagree i (List.mem_range.1 hi)]

/-- When the source signals exhaustion at an index in the range of the counter, the function
returns the container built from the modes below the least such index. -/
theorem GetSupportedResolutions_returns (src : Nat → Option DEVMODEA) (n : Nat)
    (hn : n < 2 ^ 32) (hzero : src n = none) :
    ∃ m, ExhaustsAt src m ∧ GetSupportedResolutions src = some (containerAt src m) := by
  obtain ⟨m, hm, hex⟩ := exists_exhaustsAt src n hzero
  exact ⟨m, hex, GetSupportedResolutions_of_exhaustsAt src m (by omega) hex⟩

theorem containerAt_nodup (src : Nat → Option DEVMODEA) (m : Nat) :
    (containerAt src m).Nodup := by
  refine (containerAt_pairwise src m).imp ?_
  intro a b hab heq
  subst heq
  exact Resolution.lexLt_irrefl a hab

/-! ## The claims -/

/-- C1: for a source that signals exhaustion at an index in the range of the counter,
`GetSupportedResolutions` returns a sequence in which every adjacent pair `(a, b)`, with `a`
immediately before `b`, is strictly ascending in the lexicographic order on
`(width, height, refreshRate)`. -/
theorem GetSupportedResolutions_strictly_ascending (src : Nat → Option DEVMODEA) (n : Nat)
    (hn : n < 2 ^ 32) (hzero : src n = none) :
    ∃ l, GetSupportedResolutions src = some l ∧
      ∀ (i : Nat) (a b : Resolution), l[i]? = some a → l[i + 1]? = some b →
        a.width < b.width ∨ (a.width = b.width ∧ a.height < b.height) ∨
          (a.width = b.width ∧ a.height = b.height ∧ a.refreshRate < b.refreshRate) := by
  obtain ⟨m, _, hret⟩ := GetSupportedResolutions_returns src n hn hzero
  refine ⟨_, hret, ?_⟩
  intro i a b ha hb
  obtain ⟨hi, rfl⟩ := List.getElem?_eq_some.1 ha
  obtain ⟨hj, rfl⟩ := List.getElem?_eq_some.1 hb
  exact List.pairwise_iff_getElem.1 (containerAt_pairwise src m) i (i + 1) hi hj (Nat.lt_succ_self i)

theorem GetSupportedResolutions_strictly_ascending_witness :
    ∃ l, GetSupportedResolutions unorderedSource = some l ∧
      ∀ (i : Nat) (a b : Resolution), l[i]? = some a → l[i + 1]? = some b →
        a.width < b.width ∨ (a.width = b.width ∧ a.height < b.height) ∨
          (a.width = b.width ∧ a.height = b.height ∧ a.refreshRate < b.refreshRate) :=
  GetSupportedResolutions_strictly_ascending unorderedSource 3 (by norm_num) (by decide)

/-- C2: for a source that signals exhaustion at an index in the range of the counter, however
often it reports a triple, `GetSupportedResolutions` returns a sequence in which no two entries
at distinct positions have the same `(width, height, refreshRate)` triple. -/
theorem GetSupportedResolutions_no_duplicates (src : Nat → Option DEVMODEA) (n : Nat)
    (hn : n < 2 ^ 32) (hzero : src n = none) :
    ∃ l, GetSupportedResolutions src = some l ∧
      ∀ (i j : Nat) (a b : Resolution), l[i]? = some a → l[j]? = some b → i ≠ j →
        ¬ (a.width = b.width ∧ a.height = b.height ∧ a.refreshRate = b.refreshRate) := by
  obtain ⟨m, _, hret⟩ := GetSupportedResolutions_returns src n hn hzero
  refine ⟨_, hret, ?_⟩
  intro i j a b ha hb hij
  obtain ⟨hi, rfl⟩ := List.getElem?_eq_some.1 ha
  obtain ⟨hj, rfl⟩ := List.getElem?_eq_some.1 hb
  have hpw := List.pairwise_iff_getElem.1 (containerAt_pairwise src m)
  rintro ⟨hw, hh, hf⟩
  rcases Nat.lt_or_gt_of_ne hij with h | h
  · have := hpw i j hi hj h
    unfold Resolution.lexLt at this
    omega
  · have := hpw j i hj hi h
    unfold Resolution.lexLt at this
    omega

theorem GetSupportedResolutions_no_duplicates_witness :
    ∃ l, GetSupportedResolutions duplicateSource = some l ∧
      ∀ (i j : Nat) (a b : Resolution), l[i]? = some a → l[j]? = some b → i ≠ j →
        ¬ (a.width = b.width ∧ a.height = b.height ∧ a.refreshRate = b.refreshRate) :=
  GetSupportedResolutions_no_duplicates duplicateSource 3 (by norm_num) (by decide)

/-- C3: for a source that signals exhaustion at an index in the range of the counter,
`GetSupportedResolutions` returns a sequence in which, for every record the source reports at
an index before it signals exhaustion, exactly one entry has the record's `dmPelsWidth` as its
width, the record's `dmPelsHeight` as its height and the record's `dmDisplayFrequency` as its
refresh rate. -/
theorem GetSupportedResolutions_complete (src : Nat → Option DEVMODEA) (n : Nat)
    (hn : n < 2 ^ 32) (hzero : src n = none) :
    ∃ l, GetSupportedResolutions src = some l ∧
      ∀ (i : Nat) (dm : DEVMODEA), (∀ j, j < i → (src j).isSome = true) → src i = some dm →
        l.countP (fun r => decide (r.width = dm.dmPelsWidth ∧ r.height = dm.dmPelsHeight ∧
          r.refreshRate = dm.dmDisplayFrequency)) = 1 := by
  obtain ⟨m, hex, hret⟩ := GetSupportedResolutions_returns src n hn hzero
  refine ⟨_, hret, ?_⟩
  intro i dm hbefore hsi
  have hmem : dm.toResolution ∈ containerAt src m :=
    (reports_iff_of_exhaustsAt hex _).1 ⟨i, dm, hbefore, hsi, rfl⟩
  have hcount : (containerAt src m).count dm.toResolution = 1 :=
    List.count_eq_one_of_mem (containerAt_nodup src m) hmem
  rw [← hcount, List.count_eq_countP]
  apply List.countP_congr
  intro x _
  cases x
  simp [DEVMODEA.toResolution]

theorem GetSupportedResolutions_complete_witness :
    GetSupportedResolutions duplicateSource = some [⟨1920, 1080, 60⟩, ⟨3840, 2160, 30⟩] ∧
      duplicateSource 1 = some ⟨1920, 1080, 60⟩ ∧
      ∃ l, GetSupportedResolutions duplicateSource = some l ∧
        ∀ (i : Nat) (dm : DEVMODEA), (∀ j, j < i → (duplicateSource j).isSome = true) →
          duplicateSource i = some dm →
          l.countP (fun r => decide (r.width = dm.dmPelsWidth ∧ r.height = dm.dmPelsHeight ∧
            r.refreshRate = dm.dmDisplayFrequency)) = 1 :=
  ⟨by decide, by decide,
    GetSupportedResolutions_complete duplicateSource 3 (by norm_num) (by decide)⟩

/-- C4: two enumeration sources that report the same set of `(width, height, refreshRate)`
triples, in whatever order and with whatever multiplicities, and that each signal exhaustion at
an index in the range of the counter, make `GetSupportedResolutions` return one and the same
sequence. -/
theorem GetSupportedResolutions_deterministic (src1 src2 : Nat → Option DEVMODEA) (n1 n2 : Nat)
    (hn1 : n1 < 2 ^ 32) (hzero1 : src1 n1 = none)
    (hn2 : n2 < 2 ^ 32) (hzero2 : src2 n2 = none)
    (hsame : ∀ t, Reports src1 t ↔ Reports src2 t) :
    ∃ l, GetSupportedResolutions src1 = some l ∧ GetSupportedResolutions src2 = some l := by
  obtain ⟨m1, hex1, hret1⟩ := GetSupportedResolutions_returns src1 n1 hn1 hzero1
  obtain ⟨m2, hex2, hret2⟩ := GetSupportedResolutions_returns src2 n2 hn2 hzero2
  have heq : containerAt src1 m1 = containerAt src2 m2 := by
    refine eq_of_pairwise_lexLt_of_mem_iff (containerAt_pairwise src1 m1)
      (containerAt_pairwise src2 m2) ?_
    intro x
    rw [← reports_iff_of_exhaustsAt hex1, ← reports_iff_of_exhaustsAt hex2]
    exact hsame x
  exact ⟨_, hret1, heq ▸ hret2⟩

theorem GetSupportedResolutions_deterministic_witness :
    ∃ l, GetSupportedResolutions duplicateSource = some l ∧
      GetSupportedResolutions shuffledSource = some l :=
  have hex1 : ExhaustsAt duplicateSource 3 := ⟨by decide, by decide⟩
  have hex2 : ExhaustsAt shuffledSource 4 := ⟨by decide, by decide⟩
  have hcont : containerAt duplicateSource 3 = containerAt shuffledSource 4 := by decide
  GetSupportedResolutions_deterministic duplicateSource shuffledSource 3 4
    (by norm_num) (by decide) (by norm_num) (by decide)
    (fun t => by rw [reports_iff_of_exhaustsAt hex1, reports_iff_of_exhaustsAt hex2, hcont])

/-- C5, as stated, fails: a source that reports a mode at every index of the counter's range
gives the function no result at all, not even an empty sequence, because the loop never ends. -/
theorem GetSupportedResolutions_endless_no_result :
    ¬ ∃ l, GetSupportedResolutions endlessSource = some l := by
  rintro ⟨l, hl⟩
  rw [GetSupportedResolutions_of_never endlessSource (fun _ _ => rfl)] at hl
  cases hl

/-- C5, amended: when the enumeration primitive returns its zero result at index `0`,
`GetSupportedResolutions` returns the empty sequence; for every source whose primitive returns
its zero result at some index of the counter's range the function returns a sequence; and for a
source that reports a mode at every index of the counter's range the function does not
return. -/
theorem GetSupportedResolutions_total (src : Nat → Option DEVMODEA) :
    (src 0 = none → GetSupportedResolutions src = some []) ∧
    ((∃ n, n < 2 ^ 32 ∧ src n = none) → ∃ l, GetSupportedResolutions src = some l) ∧
    ((∀ i, i < 2 ^ 32 → (src i).isSome = true) → GetSupportedResolutions src = none) := by
  refine ⟨?_, ?_, ?_⟩
  · intro hzero
    exact GetSupportedResolutions_of_exhaustsAt src 0 (by norm_num) ⟨hzero, fun j hj => by omega⟩
  · rintro ⟨n, hn, hzero⟩
    obtain ⟨m, hm, hex⟩ := exists_exhaustsAt src n hzero
    exact ⟨containerAt src m, GetSupportedResolutions_of_exhaustsAt src m (by omega) hex⟩
  · intro hnever
    exact GetSupportedResolutions_of_never src hnever

theorem GetSupportedResolutions_total_witness :
    GetSupportedResolutions (sourceOfList []) = some [] ∧
      (∃ l, GetSupportedResolutions duplicateSource = some l) ∧
      GetSupportedResolutions endlessSource = none :=
  ⟨(GetSupportedResolutions_total (sourceOfList [])).1 (by decide),
    (GetSupportedResolutions_total duplicateSource).2.1 ⟨3, by norm_num, by decide⟩,
    (GetSupportedResolutions_total endlessSource).2.2 (fun _ _ => rfl)⟩

/-- C6: `Resolution::Compare()(r1, r2)` is true exactly when the triple
`(r1.width, r1.height, r1.refreshRate)` is strictly less than
`(r2.width, r2.height, r2.refreshRate)` in the lexicographic order, width compared first, then
height, then refresh rate. -/
theorem Compare_iff_lexicographic (r1 r2 : Resolution) :
    Resolution.Compare r1 r2 = true ↔
      Prod.Lex (fun x y : Nat => x < y) (Prod.Lex (fun x y : Nat => x < y) (fun x y : Nat => x < y))
        (r1.width, r1.height, r1.refreshRate) (r2.width, r2.height, r2.refreshRate) := by
  rw [Resolution.Compare_iff_lexLt]
  simp only [Prod.lex_def, Resolution.lexLt]
  tauto

/-- C7: the deduplication key is structural equality: neither `Compare()(r1, r2)` nor
`Compare()(r2, r1)` holds if and only if the two values have the same width, height and refresh
rate; and an insertion keeps every element of the container and makes the inserted triple an
element, so modes that differ in a field are never merged. -/
theorem Compare_equivalence_iff_fields_equal (r1 r2 : Resolution) :
    ((Resolution.Compare r1 r2 = false ∧ Resolution.Compare r2 r1 = false) ↔
      (r1.width = r2.width ∧ r1.height = r2.height ∧ r1.refreshRate = r2.refreshRate)) ∧
    (∀ (s : List Resolution) (x : Resolution), x ∈ StdSet.insert r1 s ↔ x = r1 ∨ x ∈ s) := by
  refine ⟨?_, fun s x => StdSet.mem_insert r1 x s⟩
  simp only [Bool.eq_false_iff, ne_eq, Resolution.Compare_iff_lexLt, Resolution.lexLt]
  omega

/-- C8: for a source whose least exhaustion index `n` is in the range of the counter, the
single-pass insertion into the ordered set returns exactly the sequence of the reference
procedure, which first removes the duplicate triples from the list of reported modes and then
sorts the unique triples ascending by `(width, height, refreshRate)`. -/
theorem GetSupportedResolutions_eq_reference (src : Nat → Option DEVMODEA) (n : Nat)
    (hn : n < 2 ^ 32) (hex : ExhaustsAt src n) :
    GetSupportedResolutions src = some (referenceDedupThenSort (reportedBefore src n)) := by
  rw [← containerAt_eq_reference]
  exact GetSupportedResolutions_of_exhaustsAt src n hn hex

theorem GetSupportedResolutions_eq_reference_witness :
    referenceDedupThenSort (reportedBefore duplicateSource 3)
        = [⟨1920, 1080, 60⟩, ⟨3840, 2160, 30⟩] ∧
      GetSupportedResolutions duplicateSource
        = some (referenceDedupThenSort (reportedBefore duplicateSource 3)) :=
  ⟨by decide,
    GetSupportedResolutions_eq_reference duplicateSource 3 (by norm_num) ⟨by decide, by decide⟩⟩

/-- C9: the enumeration stops at the first index `n` at which the primitive signals that there
is no mode: two sources that agree on the indices `0, ..., n` have the same outcome, whatever
they report at greater indices, and when `n` is in the counter's range that outcome is one
returned sequence, built from the modes at the indices below `n`. -/
theorem GetSupportedResolutions_stops_at_exhaustion (src1 src2 : Nat → Option DEVMODEA) (n : Nat)
    (hex : ExhaustsAt src1 n) (hagree : ∀ i, i ≤ n → src1 i = src2 i) :
    GetSupportedResolutions src1 = GetSupportedResolutions src2 ∧
      (n < 2 ^ 32 → GetSupportedResolutions src1
          = some (referenceDedupThenSort (reportedBefore src1 n)) ∧
        GetSupportedResolutions src2
          = some (referenceDedupThenSort (reportedBefore src1 n))) := by
  have hex2 : ExhaustsAt src2 n :=
    ⟨(hagree n (le_refl n)) ▸ hex.1, fun j hj => (hagree j (by omega)) ▸ hex.2 j hj⟩
  have hrep : reportedBefore src2 n = reportedBefore src1 n :=
    reportedBefore_congr src2 src1 n (fun i hi => (hagree i (by omega)).symm)
  by_cases hn : n < 2 ^ 32
  · have h1 := GetSupportedResolutions_of_exhaustsAt src1 n hn hex
    have h2 := GetSupportedResolutions_of_exhaustsAt src2 n hn hex2
    rw [containerAt_eq_reference] at h1 h2
    rw [hrep] at h2
    exact ⟨h1.trans h2.symm, fun _ => ⟨h1, h2⟩⟩
  · have hn1 : ∀ i, i < 2 ^ 32 → (src1 i).isSome = true := fun i hi => hex.2 i (by omega)
    have hn2 : ∀ i, i < 2 ^ 32 → (src2 i).isSome = true := fun i hi => hex2.2 i (by omega)
    rw [GetSupportedResolutions_of_never src1 hn1, GetSupportedResolutions_of_never src2 hn2]
    exact ⟨rfl, fun h => absurd h hn⟩

theorem GetSupportedResolutions_stops_at_exhaustion_witness :
    resumingSource 4 = some ⟨640, 480, 60⟩ ∧ duplicateSource 4 = none ∧
      GetSupportedResolutions duplicateSource = GetSupportedResolutions resumingSource :=
  ⟨by decide, by decide,
    (GetSupportedResolutions_stops_at_exhaustion duplicateSource resumingSource 3
      ⟨by decide, by decide⟩ (by decide)).1⟩

/-- C10: inserting a `Resolution` into the ordered container is a no-op when an equal triple is
already present: for every container state `s` reachable in the loop and every `r` whose
`(width, height, refreshRate)` triple occurs in `s`, the container after `insert(r)` is `s`. -/
theorem insert_noop_of_present (s : List Resolution) (r : Resolution)
    (hs : Reachable s)
    (hr : ∃ x, x ∈ s ∧ x.width = r.width ∧ x.height = r.height ∧ x.refreshRate = r.refreshRate) :
    StdSet.insert r s = s := by
  obtain ⟨x, hx, hw, hh, hf⟩ := hr
  obtain rfl := Resolution.eq_of_fields hw hh hf
  exact StdSet.insert_eq_self_of_mem x s hs.pairwise hx

theorem insert_noop_of_present_witness :
    StdSet.insert ⟨1920, 1080, 60⟩ (StdSet.insert ⟨1920, 1080, 60⟩ [])
      = StdSet.insert ⟨1920, 1080, 60⟩ [] :=
  insert_noop_of_present (StdSet.insert ⟨1920, 1080, 60⟩ []) ⟨1920, 1080, 60⟩
    (Reachable.step ⟨1920, 1080, 60⟩ [] Reachable.empty)
    ⟨⟨1920, 1080, 60⟩, by decide, rfl, rfl, rfl⟩

/-! ## The queries of the loop -/

/-- Forgetting the recorded queries gives the loop back. -/
theorem enumLoopQueries_snd (src : Nat → Option DEVMODEA) :
    ∀ (fuel k : Nat) (qs : List Nat) (rs : List Resolution),
      (enumLoopQueries src fuel k qs rs).map Prod.snd = enumLoop src fuel k rs := by
  intro fuel
  induction fuel with
  | zero => intro k qs rs; rfl
  | succ fuel ih =>
    intro k qs rs
    cases hsk : src k with
    | none => simp [enumLoopQueries, enumLoop, hsk]
    | some dm =>
      simp only [enumLoopQueries, enumLoop, hsk]
      exact ih _ _ _

/-- From the head of the loop at a counter `k` up to the exhaustion index `n`: with enough fuel
the loop ends having queried the indices `0, ..., n`. -/
theorem enumLoopQueries_of_exhaustsAt (src : Nat → Option DEVMODEA) (n : Nat) (hn : n < 2 ^ 32)
    (hex : ExhaustsAt src n) :
    ∀ fuel k, k ≤ n → n - k < fuel →
      enumLoopQueries src fuel k (List.range k) (containerAt src k)
        = some (List.range (n + 1), containerAt src n) := by
  intro fuel
  induction fuel with
  | zero => intro k _ hf; omega
  | succ fuel ih =>
    intro k hk hf
    rcases Nat.eq_or_lt_of_le hk with rfl | hlt
    · simp [enumLoopQueries, hex.1, List.range_succ]
    · have hsome := hex.2 k hlt
      cases hsk : src k with
      | none => simp [hsk] at hsome
      | some dm =>
        have hmod : (k + 1) % 2 ^ 32 = k + 1 := Nat.mod_eq_of_lt (by omega)
        have hstep : containerAt src (k + 1) = StdSet.insert dm.toResolution (containerAt src k) := by
          simp [containerAt, hsk]
        have hrange : List.range (k + 1) = List.range k ++ [k] := List.range_succ k
        simp only [enumLoopQueries, hsk, hmod]
        rw [← hstep, ← hrange]
        exact ih (k + 1) (by omega) (by omega)

/-- Before the exhaustion index nothing ends the loop: with too little fuel to reach the index
`n` the loop is still running. -/
theorem enumLoopQueries_running (src : Nat → Option DEVMODEA) (n : Nat) (hn : n < 2 ^ 32)
    (hex : ExhaustsAt src n) :
    ∀ (fuel k : Nat) (qs : List Nat) (rs : List Resolution), k + fuel ≤ n →
      enumLoopQueries src fuel k qs rs = none := by
  intro fuel
  induction fuel with
  | zero => intro k qs rs _; rfl
  | succ fuel ih =>
    intro k qs rs hk
    have hsome := hex.2 k (by omega)
    cases hsk : src k with
    | none => simp [hsk] at hsome
    | some dm =>
      have hmod : (k + 1) % 2 ^ 32 = k + 1 := Nat.mod_eq_of_lt (by omega)
      simp only [enumLoopQueries, hsk, hmod]
      exact ih _ _ _ (by omega)

/-- C11: for a source that signals exhaustion at a least index `n < 2 ^ 32`, the loop of
`GetSupportedResolutions` terminates, having queried the primitive exactly `n + 1` times, at the
indices `0, 1, ..., n` in ascending order; it ends on the exhaustion signal only, so with fewer
than `n + 1` evaluations of its condition it has not ended. -/
theorem GetSupportedResolutions_queries (src : Nat → Option DEVMODEA) (n : Nat)
    (hn : n < 2 ^ 32) (hex : ExhaustsAt src n) :
    ∃ l, GetSupportedResolutions src = some l ∧
      (∀ fuel, n < fuel → enumLoopQueries src fuel 0 [] [] = some (List.range (n + 1), l)) ∧
      (List.range (n + 1)).length = n + 1 ∧
      (∀ fuel, fuel ≤ n → enumLoopQueries src fuel 0 [] [] = none) := by
  refine ⟨containerAt src n, GetSupportedResolutions_of_exhaustsAt src n hn hex, ?_, ?_, ?_⟩
  · intro fuel hf
    exact enumLoopQueries_of_exhaustsAt src n hn hex fuel 0 (Nat.zero_le n) (by omega)
  · exact List.length_range (n + 1)
  · intro fuel hf
    exact enumLoopQueries_running src n hn hex fuel 0 [] [] (by omega)

theorem GetSupportedResolutions_queries_witness :
    enumLoopQueries duplicateSource (2 ^ 32) 0 [] []
        = some ([0, 1, 2, 3], [⟨1920, 1080, 60⟩, ⟨3840, 2160, 30⟩]) ∧
      ∃ l, GetSupportedResolutions duplicateSource = some l ∧
        (∀ fuel, 3 < fuel →
          enumLoopQueries duplicateSource fuel 0 [] [] = some (List.range (3 + 1), l)) ∧
        (List.range (3 + 1)).length = 3 + 1 ∧
        (∀ fuel, fuel ≤ 3 → enumLoopQueries duplicateSource fuel 0 [] [] = none) :=
  ⟨by decide,
    GetSupportedResolutions_queries duplicateSource 3 (by norm_num) ⟨by decide, by decide⟩⟩

/-- C12: `Resolution::Compare` is a strict weak ordering: it is irreflexive, asymmetric and
transitive, and the equivalence it induces (neither value compares less than the other) is
transitive as well. -/
theorem Compare_strict_weak_ordering (r1 r2 r3 : Resolution) :
    Resolution.Compare r1 r1 = false ∧
    (Resolution.Compare r1 r2 = true → Resolution.Compare r2 r1 = false) ∧
    (Resolution.Compare r1 r2 = true → Resolution.Compare r2 r3 = true →
      Resolution.Compare r1 r3 = true) ∧
    (Resolution.Compare r1 r2 = false → Resolution.Compare r2 r1 = false →
      Resolution.Compare r2 r3 = false → Resolution.Compare r3 r2 = false →
      Resolution.Compare r1 r3 = false ∧ Resolution.Compare r3 r1 = false) := by
  simp only [Bool.eq_false_iff, ne_eq, Resolution.Compare_iff_lexLt, Resolution.lexLt]
  omega

theorem Compare_strict_weak_ordering_witness :
    Resolution.Compare ⟨1920, 1080, 60⟩ ⟨1920, 1080, 60⟩ = false ∧
      Resolution.Compare ⟨1920, 1200, 60⟩ ⟨1920, 1080, 60⟩ = false ∧
      Resolution.Compare ⟨1920, 1080, 60⟩ ⟨1920, 1200, 75⟩ = true :=
  ⟨(Compare_strict_weak_ordering ⟨1920, 1080, 60⟩ ⟨1920, 1200, 60⟩ ⟨1920, 1200, 75⟩).1,
    (Compare_strict_weak_ordering ⟨1920, 1080, 60⟩ ⟨1920, 1200, 60⟩ ⟨1920, 1200, 75⟩).2.1
      (by decide),
    (Compare_strict_weak_ordering ⟨1920, 1080, 60⟩ ⟨1920, 1200, 60⟩ ⟨1920, 1200, 75⟩).2.2.1
      (by decide) (by decide)⟩

/-! ## The entries of the result -/

/-- In a strictly ascending list the first element is below every other element. -/
theorem head_lexLe_of_pairwise {l : List Resolution} (hl : l.Pairwise Resolution.lexLt)
    {a : Resolution} (ha : l.head? = some a) (x : Resolution) (hx : x ∈ l) :
    Resolution.lexLe a x := by
  obtain ⟨ys, rfl⟩ := List.head?_eq_some_iff.1 ha
  rcases List.mem_cons.1 hx with rfl | hx
  · exact (Resolution.lexLe_iff x x).2 (Or.inr rfl)
  · exact (Resolution.lexLe_iff a x).2 (Or.inl ((List.pairwise_cons.1 hl).1 x hx))

/-- In a strictly ascending list the last element is above every other element. -/
theorem lexLe_getLast_of_pairwise {l : List Resolution} (hl : l.Pairwise Resolution.lexLt)
    {b : Resolution} (hb : l.getLast? = some b) (x : Resolution) (hx : x ∈ l) :
    Resolution.lexLe x b := by
  obtain ⟨ys, rfl⟩ := List.getLast?_eq_some_iff.1 hb
  rcases List.mem_append.1 hx with hx | hx
  · exact (Resolution.lexLe_iff x b).2
      (Or.inl ((List.pairwise_append.1 hl).2.2 x hx b (List.mem_singleton.2 rfl)))
  · obtain rfl := List.mem_singleton.1 hx
    exact (Resolution.lexLe_iff x x).2 (Or.inr rfl)

/-- C13: `GetSupportedResolutions` invents no entries: every element of the returned sequence
has its width, height and refresh rate equal to the `dmPelsWidth`, `dmPelsHeight` and
`dmDisplayFrequency` of a mode the source reported at an index before exhaustion; the records
holding `DWORD` values, every returned field is below `2 ^ 32`. -/
theorem GetSupportedResolutions_invents_nothing (src : Nat → Option DEVMODEA) (n : Nat)
    (hn : n < 2 ^ 32) (hex : ExhaustsAt src n)
    (hdword : ∀ i dm, i < n → src i = some dm → dm.InDWordRange) :
    ∃ l, GetSupportedResolutions src = some l ∧
      ∀ r, r ∈ l →
        (∃ i dm, i < n ∧ src i = some dm ∧ r.width = dm.dmPelsWidth ∧
          r.height = dm.dmPelsHeight ∧ r.refreshRate = dm.dmDisplayFrequency) ∧
        r.width < 2 ^ 32 ∧ r.height < 2 ^ 32 ∧ r.refreshRate < 2 ^ 32 := by
  refine ⟨containerAt src n, GetSupportedResolutions_of_exhaustsAt src n hn hex, ?_⟩
  intro r hr
  obtain ⟨i, dm, hi, hsi, rfl⟩ := (mem_containerAt src n r).1 hr
  have hrange := hdword i dm hi hsi
  exact ⟨⟨i, dm, hi, hsi, rfl, rfl, rfl⟩, hrange.1, hrange.2.1, hrange.2.2⟩

theorem GetSupportedResolutions_invents_nothing_witness :
    ∃ l, GetSupportedResolutions duplicateSource = some l ∧
      ∀ r, r ∈ l →
        (∃ i dm, i < 3 ∧ duplicateSource i = some dm ∧ r.width = dm.dmPelsWidth ∧
          r.height = dm.dmPelsHeight ∧ r.refreshRate = dm.dmDisplayFrequency) ∧
        r.width < 2 ^ 32 ∧ r.height < 2 ^ 32 ∧ r.refreshRate < 2 ^ 32 :=
  GetSupportedResolutions_invents_nothing duplicateSource 3 (by norm_num)
    ⟨by decide, by decide⟩
    (by
      intro i dm hi hsi
      have h3 : i = 0 ∨ i = 1 ∨ i = 2 := by omega
      rcases h3 with rfl | rfl | rfl <;>
        · simp [duplicateSource, sourceOfList] at hsi
          subst hsi
          simp [DEVMODEA.InDWordRange])

/-- C14: for a source that reports at least one mode, the returned sequence is not empty; its
first and its last element are reported modes, the first the lexicographic minimum and the last
the lexicographic maximum by `(width, height, refreshRate)` of all reported modes; in particular
the last element has the greatest reported width. -/
theorem GetSupportedResolutions_extremes (src : Nat → Option DEVMODEA) (n : Nat)
    (hn : n < 2 ^ 32) (hex : ExhaustsAt src n) (hpos : 0 < n) :
    ∃ l first last, GetSupportedResolutions src = some l ∧ l ≠ [] ∧
      l.head? = some first ∧ l.getLast? = some last ∧
      Reports src first ∧ Reports src last ∧
      ∀ t, Reports src t →
        Resolution.lexLe first t ∧ Resolution.lexLe t last ∧ t.width ≤ last.width := by
  have hret := GetSupportedResolutions_of_exhaustsAt src n hn hex
  have hpw := containerAt_pairwise src n
  have hne : containerAt src n ≠ [] := by
    have hsome := hex.2 0 hpos
    cases hs0 : src 0 with
    | none => simp [hs0] at hsome
    | some dm =>
      have hmem : dm.toResolution ∈ containerAt src n :=
        (mem_containerAt src n _).2 ⟨0, dm, hpos, hs0, rfl⟩
      exact List.ne_nil_of_mem hmem
  obtain ⟨a, rest, hl⟩ := List.exists_cons_of_ne_nil hne
  have hhead : (containerAt src n).head? = some a := by rw [hl]; rfl
  have hlast : (containerAt src n).getLast? = some ((containerAt src n).getLast hne) :=
    List.getLast?_eq_getLast _ hne
  have hamem : a ∈ containerAt src n := by rw [hl]; exact List.mem_cons_self a rest
  have hbmem : (containerAt src n).getLast hne ∈ containerAt src n := List.getLast_mem hne
  refine ⟨containerAt src n, a, (containerAt src n).getLast hne, hret, hne, hhead, hlast,
    (reports_iff_of_exhaustsAt hex a).2 hamem, (reports_iff_of_exhaustsAt hex _).2 hbmem, ?_⟩
  intro t ht
  have htmem := (reports_iff_of_exhaustsAt hex t).1 ht
  have h1 := head_lexLe_of_pairwise hpw hhead t htmem
  have h2 := lexLe_getLast_of_pairwise hpw hlast t htmem
  refine ⟨h1, h2, ?_⟩
  unfold Resolution.lexLe at h2
  omega

theorem GetSupportedResolutions_extremes_witness :
    GetSupportedResolutions unorderedSource
        = some [⟨3440, 1440, 144⟩, ⟨3840, 2160, 60⟩, ⟨3840, 2160, 120⟩] ∧
      ∃ l first last, GetSupportedResolutions unorderedSource = some l ∧ l ≠ [] ∧
        l.head? = some first ∧ l.getLast? = some last ∧
        Reports unorderedSource first ∧ Reports unorderedSource last ∧
        ∀ t, Reports unorderedSource t →
          Resolution.lexLe first t ∧ Resolution.lexLe t last ∧ t.width ≤ last.width :=
  ⟨by decide,
    GetSupportedResolutions_extremes unorderedSource 3 (by norm_num) ⟨by decide, by decide⟩
      (by norm_num)⟩
